import Mathlib

/-!
Verification of the username-extraction core pipeline.

Shallow embedding of the core functions of `extract_usernames.py` and of the
dual-engine consensus functions of `extract_usernames/_archive/extract_usernames.py`:
the identity normalizer (`clean_username`), the Levenshtein edit distance
(`levenshtein_distance`), the dotted-sibling and confusion-pair repairs, the
variant voting engine (`ocr_extract_username`), the dual-engine consensus merger
(`intelligent_consensus_validator`), the confidence classifier (`classify_status`),
the VLM confidence scoring (`vlm_primary_extract`), and the duplicate detector
(`find_similar_existing` and its caller).

Strings are modelled as `List Char` restricted to the ASCII behaviour of the
Python string primitives (`str.lower`, `str.isalnum`, the `\w` character class);
Python floats are modelled as exact rationals.
-/

attribute [local semireducible] Rat.mul Rat.add Rat.inv Rat.sub Rat.ofScientific

namespace ExtractUsernames

/-! ### ASCII models of the Python character primitives -/

/-- Model of Python `str.isdigit` for a single ASCII character. -/
def pyIsDigit (c : Char) : Bool := 48 ≤ c.toNat && c.toNat ≤ 57

/-- ASCII lowercase letter test. -/
def pyIsLowerAlpha (c : Char) : Bool := 97 ≤ c.toNat && c.toNat ≤ 122

/-- ASCII uppercase letter test. -/
def pyIsUpperAlpha (c : Char) : Bool := 65 ≤ c.toNat && c.toNat ≤ 90

/-- Model of Python `str.isalnum` for a single ASCII character. -/
def pyIsAlnum (c : Char) : Bool := pyIsDigit c || pyIsLowerAlpha c || pyIsUpperAlpha c

/-- Model of Python `str.lower` on a single ASCII character. -/
def pyLower (c : Char) : Char :=
  if pyIsUpperAlpha c then Char.ofNat (c.toNat + 32) else c

/-- Model of the Python `\s` class (ASCII whitespace). -/
def pyIsSpace (c : Char) : Bool := c.toNat = 32 || (9 ≤ c.toNat && c.toNat ≤ 13)

/-- A character kept by `re.sub(r'[^\w._]', '', text)`: word character or dot
(`\w` is alphanumerics plus underscore). -/
def pyIsWordOrDot (c : Char) : Bool := pyIsAlnum c || c = '_' || c = '.'

/-- Model of Python `str.strip(chars)`: drop characters satisfying `p` from both
ends. -/
def pyStrip (p : Char → Bool) (l : List Char) : List Char :=
  ((l.dropWhile p).reverse.dropWhile p).reverse

/-- Model of Python `str.rstrip('.')`. -/
def rstripDot (l : List Char) : List Char :=
  (l.reverse.dropWhile (fun c => c = '.')).reverse

/-! ### Identity normalizer: `clean_username` (src/extract_usernames.py:479) -/

/-- The text-rewriting pipeline of `clean_username` before its validity checks:
lowercase, strip, delete whitespace (`re.sub(r'\s+', '', ·)`), delete every
character outside `[\w._]`, strip leading `.`/`_` and trailing `.`. -/
def normalized_core (text : List Char) : List Char :=
  rstripDot
    (((((pyStrip pyIsSpace (text.map pyLower)).filter
      (fun c => !pyIsSpace c)).filter pyIsWordOrDot).dropWhile
      (fun c => c = '.' || c = '_')))

/-- Embedding of `clean_username`: run the rewriting pipeline, then check
length 1–30, alphanumeric first character, no trailing dot, at least one
alphanumeric character. -/
def clean_username (text : List Char) : Option (List Char) :=
  if text = [] then none
  else
    let t := normalized_core text
    if t.length < 1 || 30 < t.length then none
    else if !pyIsAlnum (t.headD ' ') then none
    else if t.getLastD ' ' = '.' then none
    else if !t.any pyIsAlnum then none
    else some t

/-! ### Levenshtein distance (src/extract_usernames.py:505) -/

/-- Inner loop of the dynamic-programming row update: given the current source
character `c1`, the remaining target characters, the remaining previous-row
suffix and the last value written to the current row, produce the rest of the
current row.  Each cell is
`min(previous_row[j+1] + 1, current_row[j] + 1, previous_row[j] + (c1 != c2))`. -/
def levNext (c1 : Char) : List Char → List Nat → Nat → List Nat
  | [], _, _ => []
  | c2 :: s2, p0 :: p1 :: prest, left =>
    let cell := min (p1 + 1) (min (left + 1) (p0 + (if c1 = c2 then 0 else 1)))
    cell :: levNext c1 s2 (p1 :: prest) cell
  | _ :: _, _, _ => []

/-- Outer loop over the source string: row `i` starts with `i + 1`. -/
def levLoop (s2 : List Char) : List Char → List Nat → Nat → List Nat
  | [], prev, _ => prev
  | c1 :: s1, prev, i => levLoop s2 s1 ((i + 1) :: levNext c1 s2 prev (i + 1)) (i + 1)

/-- The Wagner–Fischer computation of `levenshtein_distance` after the
length-normalizing swap: early return `len(s1)` when `s2` is empty, otherwise
run the row loop from `range(len(s2)+1)` and read the last cell. -/
def levCore (s1 s2 : List Char) : Nat :=
  if s2 = [] then s1.length
  else (levLoop s2 s1 (List.range (s2.length + 1)) 0).getLastD 0

/-- Embedding of `levenshtein_distance`, including the initial swap that makes
the first argument the longer string. -/
def levenshtein_distance (s1 s2 : List Char) : Nat :=
  if s1.length < s2.length then levCore s2 s1 else levCore s1 s2

/-! ### Dotted-sibling repair (src/extract_usernames.py:222, 267) -/

/-- The character-by-character scan of `_is_dotted_sibling`: characters must
match, or the candidate has `.` where the winner has `o`/`O`/`0` (dot misread
as a letter), or the candidate has `.` where the winner has nothing (dot
dropped); leftover candidate characters must all be `.`, leftover winner
characters must all be `o`/`O`/`0`. -/
def dottedScan : List Char → List Char → Bool
  | c :: cs, w :: ws =>
    if c = w then dottedScan cs ws
    else if c = '.' then
      if w = 'o' || w = 'O' || w = '0' then dottedScan cs ws
      else dottedScan cs (w :: ws)
    else false
  | cs, [] => cs.all (fun c => c = '.')
  | [], ws => ws.all (fun w => w = 'o' || w = 'O' || w = '0')

/-- Embedding of `_is_dotted_sibling`: false on equal strings, false when the
candidate carries no dot, otherwise the scan above. -/
def is_dotted_sibling (candidate winner : List Char) : Bool :=
  if candidate = winner then false
  else if !candidate.contains '.' then false
  else dottedScan candidate winner

/-- Embedding of `_is_dotted_variant` (archive line 584): the bidirectional
wrapper around `_is_dotted_sibling`. -/
def is_dotted_variant (username1 username2 : List Char) : Bool :=
  is_dotted_sibling username1 username2 || is_dotted_sibling username2 username1

/-! ### Confusion-pair repair (src/extract_usernames.py:295, 308) -/

/-- Does `pat` occur at the head of `s`?  (Model of Python prefix matching used
by `str.replace`.) -/
def startsWithSeq : List Char → List Char → Bool
  | [], _ => true
  | _ :: _, [] => false
  | a :: ps, b :: ss => a = b && startsWithSeq ps ss

/-- Model of the Python substring test `pat in s`. -/
def isSubstring (pat : List Char) : List Char → Bool
  | [] => decide (pat = [])
  | c :: rest => startsWithSeq pat (c :: rest) || isSubstring pat rest

/-- Model of Python `s.replace(pat, rep, 1)`: replace the first occurrence of
`pat` in `s` by `rep` (identity when `pat` does not occur). -/
def replaceFirst (pat rep : List Char) : List Char → List Char
  | [] => if startsWithSeq pat [] then rep else []
  | c :: rest =>
    if startsWithSeq pat (c :: rest) then rep ++ (c :: rest).drop pat.length
    else c :: replaceFirst pat rep rest

/-- The `CONFUSION_CORRECTIONS` table of `(misread, correct)` pairs. -/
def confusion_corrections : List (List Char × List Char) :=
  [("tf".toList, "ff".toList), ("a".toList, "4".toList), ("x".toList, "d".toList),
   ("cl".toList, "d".toList), ("rn".toList, "m".toList), ("vv".toList, "w".toList),
   ("ii".toList, "u".toList), ("l".toList, "1".toList), ("0".toList, "o".toList)]

/-! ### Variant voting engine (src/extract_usernames.py:340) -/

/-- One per-variant OCR reading surviving normalization: the entries of
`results_per_variant`. -/
structure VariantResult where
  username : List Char
  confidence : ℚ
  variant : List Char
deriving DecidableEq, Repr

/-- The vote weight of a variant: 2 for `'aggressive'`, 1 otherwise. -/
def vote_weight (r : VariantResult) : Nat :=
  if r.variant = "aggressive".toList then 2 else 1

/-- The weighted vote count accumulated for username `u`
(`votes[u]['count']`). -/
def vote_count (rs : List VariantResult) (u : List Char) : Nat :=
  (rs.filter (fun r => r.username = u)).foldl (fun a r => a + vote_weight r) 0

/-- The total confidence accumulated for username `u`
(`votes[u]['total_conf']`). -/
def total_conf (rs : List VariantResult) (u : List Char) : ℚ :=
  (rs.filter (fun r => r.username = u)).foldl (fun a r => a + r.confidence) 0

/-- The number of variant entries contributing to username `u`
(`sum(1 for r in results_per_variant if r['username'] == username)`). -/
def occurrences (rs : List VariantResult) (u : List Char) : Nat :=
  (rs.filter (fun r => r.username = u)).length

/-- The unweighted average confidence of the entries for username `u`. -/
def avg_conf (rs : List VariantResult) (u : List Char) : ℚ :=
  total_conf rs u / (occurrences rs u : ℚ)

/-- The distinct usernames in dictionary insertion order (first occurrence
first), modelling the iteration order of the `votes` dict. -/
def vote_keys (rs : List VariantResult) : List (List Char) :=
  rs.foldl (fun acc r => if r.username ∈ acc then acc else acc ++ [r.username]) []

/-- The keys of `votes` sorted by weighted count, descending.  Python's
`sorted(..., reverse=True)` is a stable descending sort, and a stable sort is
extensionally unique, so the stable `insertionSort` models it exactly. -/
def sorted_keys (rs : List VariantResult) : List (List Char) :=
  List.insertionSort (fun a b => vote_count rs b ≤ vote_count rs a) (vote_keys rs)

/-- The first username in the sorted order whose weighted count reaches the
consensus threshold of 3, if any. -/
def consensus_key (rs : List VariantResult) : Option (List Char) :=
  (sorted_keys rs).find? (fun u => decide (3 ≤ vote_count rs u))

/-- Model of Python `max(results_per_variant, key=lambda x: x['confidence'])`:
the first entry of maximal confidence. -/
def max_by_conf : List VariantResult → Option VariantResult
  | [] => none
  | r :: rs => some (rs.foldl (fun b x => if b.confidence < x.confidence then x else b) r)

/-- Which selection rule produced the per-engine winner. -/
inductive WinMethod where
  | consensus
  | highest_confidence
deriving DecidableEq, Repr

/-- The winner-selection stage of `ocr_extract_username` (before the repair
layer): the first identity in count-descending order with weighted count ≥ 3
wins by consensus at its average confidence; otherwise the single candidate
with the highest raw confidence wins. -/
def select_winner (rs : List VariantResult) : Option (List Char × ℚ × WinMethod) :=
  if rs = [] then none
  else
    match consensus_key rs with
    | some u => some (u, avg_conf rs u, .consensus)
    | none => (max_by_conf rs).map (fun r => (r.username, r.confidence, .highest_confidence))

/-! ### Misread correction layer (src/extract_usernames.py:267, 308, 390) -/

/-- Embedding of `_find_dotted_sibling`: scan the variant pool for the
highest-confidence dotted sibling of the winner, and accept it when its
confidence is at least 70% of the winner's. -/
def find_dotted_sibling (winner : List Char) (rs : List VariantResult) (winnerConf : ℚ) :
    Option (List Char × ℚ) :=
  let best := rs.foldl
    (fun (acc : Option (List Char) × ℚ) r =>
      if r.username = winner then acc
      else if is_dotted_sibling r.username winner && acc.2 < r.confidence then
        (some r.username, r.confidence)
      else acc)
    (none, 0)
  match best.1 with
  | some d => if winnerConf * (0.70 : ℚ) ≤ best.2 then some (d, best.2) else none
  | none => none

/-- Embedding of `_find_confusion_correction`: the first pool entry within edit
distance 1–3 of the winner that is exactly the winner with the first occurrence
of a known `misread` substring replaced by its `correct` counterpart, accepted
at a 55% confidence bar. -/
def find_confusion_correction (winner : List Char) (rs : List VariantResult) (winnerConf : ℚ) :
    Option (List Char × ℚ) :=
  rs.findSome? (fun r =>
    if r.username = winner then none
    else
      let dist := levenshtein_distance r.username winner
      if dist = 0 || 3 < dist then none
      else
        confusion_corrections.findSome? (fun p =>
          if isSubstring p.1 winner && isSubstring p.2 r.username then
            if replaceFirst p.1 p.2 winner = r.username then
              if winnerConf * (0.55 : ℚ) ≤ r.confidence then some (r.username, r.confidence)
              else none
            else none
          else none))

/-- Embedding of the voting-plus-repair portion of `ocr_extract_username`
(lines 375–423): consensus winners return immediately after the first
qualifying repair; highest-confidence winners are first dot-reconciled and the
confusion correction is then attempted against the (possibly replaced)
winner. -/
def ocr_extract_username (rs : List VariantResult) : Option (List Char × ℚ × WinMethod) :=
  if rs = [] then none
  else
    match consensus_key rs with
    | some u =>
      let avg := avg_conf rs u
      match find_dotted_sibling u rs avg with
      | some d => some (d.1, d.2, .consensus)
      | none =>
        match find_confusion_correction u rs avg with
        | some c => some (c.1, c.2, .consensus)
        | none => some (u, avg, .consensus)
    | none =>
      match max_by_conf rs with
      | none => none
      | some best =>
        let wc1 :=
          match find_dotted_sibling best.username rs best.confidence with
          | some d => d
          | none => (best.username, best.confidence)
        match find_confusion_correction wc1.1 rs wc1.2 with
        | some d => some (d.1, d.2, .highest_confidence)
        | none => some (wc1.1, wc1.2, .highest_confidence)

/-! ### Dual-engine consensus merger (archive lines 592–712) -/

/-- Embedding of `_find_confusion_match` (archive line 592): bidirectional
confusion-pair check between the two engine outputs; the corrected side is
adopted at a fixed confidence of 88. -/
def find_confusion_match (vlm_username ocr_username : List Char) : Option (List Char × ℚ) :=
  if vlm_username = [] || ocr_username = [] then none
  else
    let dist := levenshtein_distance vlm_username ocr_username
    if dist = 0 || 3 < dist then none
    else
      confusion_corrections.findSome? (fun p =>
        if isSubstring p.1 vlm_username && isSubstring p.2 ocr_username &&
            decide (replaceFirst p.1 p.2 vlm_username = ocr_username) then
          some (ocr_username, (88 : ℚ))
        else if isSubstring p.1 ocr_username && isSubstring p.2 vlm_username &&
            decide (replaceFirst p.1 p.2 ocr_username = vlm_username) then
          some (vlm_username, (88 : ℚ))
        else none)

/-- The strategy tag recorded by the consensus merger. -/
inductive Strategy where
  | exact_agreement
  | dot_reconciled_vlm
  | dot_reconciled_ocr
  | confusion_corrected
  | vlm_longer_variant
  | ocr_longer_variant
  | vlm_confidence_match
  | ocr_confidence_match
  | vlm_disagreement_win
  | ocr_disagreement_win
  | ambiguous_disagreement
deriving DecidableEq, Repr

/-- Embedding of `intelligent_consensus_validator` (archive line 621): the
ordered strategy list merging the VLM and EasyOCR results. -/
def intelligent_consensus_validator (vlm_username : List Char) (vlm_confidence : ℚ)
    (ocr_username : List Char) (ocr_confidence : ℚ) : List Char × ℚ × Strategy :=
  if vlm_username = ocr_username then
    (vlm_username, min (max vlm_confidence ocr_confidence + 5) 95, .exact_agreement)
  else if is_dotted_variant vlm_username ocr_username then
    if vlm_username.contains '.' || vlm_username.contains '_' then
      (vlm_username, vlm_confidence + 3, .dot_reconciled_vlm)
    else
      (ocr_username, ocr_confidence + 3, .dot_reconciled_ocr)
  else
    match find_confusion_match vlm_username ocr_username with
    | some c => (c.1, c.2, .confusion_corrected)
    | none =>
      let edit_dist := levenshtein_distance vlm_username ocr_username
      if edit_dist ≤ 2 then
        if ocr_username.length < vlm_username.length then
          (vlm_username, vlm_confidence, .vlm_longer_variant)
        else if vlm_username.length < ocr_username.length then
          (ocr_username, ocr_confidence, .ocr_longer_variant)
        else if ocr_confidence ≤ vlm_confidence then
          (vlm_username, vlm_confidence, .vlm_confidence_match)
        else
          (ocr_username, ocr_confidence, .ocr_confidence_match)
      else if ocr_confidence + 10 ≤ vlm_confidence then
        (vlm_username, max (vlm_confidence - 10) 75, .vlm_disagreement_win)
      else if vlm_confidence + 10 ≤ ocr_confidence then
        (ocr_username, max (ocr_confidence - 10) 75, .ocr_disagreement_win)
      else
        (vlm_username, max (vlm_confidence - 15) 70, .ambiguous_disagreement)

/-! ### Confidence classifier (archive line 699) -/

/-- The status tier of a final result. -/
inductive Status where
  | verified
  | review
  | failed
  | error
deriving DecidableEq, Repr

/-- Embedding of `classify_status`: `≥ 95` verified (HIGH), `≥ 85` verified
(MED), otherwise review. -/
def classify_status (confidence : ℚ) : Status :=
  if 95 ≤ confidence then .verified
  else if 85 ≤ confidence then .verified
  else .review

/-! ### VLM primary engine confidence (archive lines 462–581) -/

/-- Embedding of `is_valid_instagram_format`: length 1–30, at least one
alphanumeric, alphanumeric first character, no trailing dot, only
`[a-z0-9._]`. -/
def is_valid_instagram_format (username : List Char) : Bool :=
  (1 ≤ username.length && username.length ≤ 30)
  && username.any pyIsAlnum
  && pyIsAlnum (username.headD ' ')
  && !(username.getLastD ' ' = '.')
  && username.all (fun c => pyIsLowerAlpha c || pyIsDigit c || c = '.' || c = '_')

/-- Is the character a dot or an underscore? -/
def isDotOrUnderscore (c : Char) : Bool := c = '.' || c = '_'

/-- Model of `re.search(r'[._]{4,}', username)`: four consecutive dots or
underscores occur somewhere. -/
def hasSpecialRun4 : List Char → Bool
  | a :: b :: c :: d :: rest =>
    (isDotOrUnderscore a && isDotOrUnderscore b && isDotOrUnderscore c && isDotOrUnderscore d)
    || hasSpecialRun4 (b :: c :: d :: rest)
  | _ => false

/-- Embedding of `has_unusual_pattern`: runs of four special characters, more
than 50% special characters, or a long username without vowels. -/
def has_unusual_pattern (username : List Char) : Bool :=
  if username = [] then true
  else if isSubstring "....".toList username || isSubstring "____".toList username then true
  else if hasSpecialRun4 username then true
  else if 0 < username.length &&
      decide ((0.5 : ℚ) < ((username.count '.' + username.count '_' : ℕ) : ℚ) / (username.length : ℚ)) then
    true
  else if 5 < username.length &&
      !((username.map pyLower).any (fun c => c = 'a' || c = 'e' || c = 'i' || c = 'o' || c = 'u')) then
    true
  else false

/-- The words whose presence in the raw VLM response counts as hedging. -/
def hedging_words : List (List Char) :=
  ["appears".toList, "seems".toList, "possibly".toList, "might".toList,
   "unclear".toList, "could be".toList]

/-- The confidence score computed by `vlm_primary_extract` for a successfully
cleaned username: base 85, −15 for hedging language in the raw response, +10
for a valid Instagram format, −10 for unusual patterns, clamped to
`max(60, min(·, 100))`. -/
def vlm_confidence_score (raw_response username : List Char) : ℚ :=
  let base1 : ℚ := 85
  let base2 := if hedging_words.any (fun w => isSubstring w (raw_response.map pyLower)) then
      base1 - 15
    else base1
  let base3 := if is_valid_instagram_format username then base2 + 10 else base2
  let base4 := if has_unusual_pattern username then base3 - 10 else base3
  max 60 (min base4 100)

/-- The characters stripped from the raw VLM response before cleaning:
backtick, `@`, double quote, single quote, space, newline. -/
def vlm_strip_set : List Char := [Char.ofNat 96, '@', '"', Char.ofNat 39, ' ', Char.ofNat 10]

/-- Embedding of the text post-processing of `vlm_primary_extract`: strip the
response, strip the quote/`@` characters, normalize, and on success report the
username together with its computed confidence (`(None, 0)` on rejection). -/
def vlm_primary_extract (content : List Char) : Option (List Char) × ℚ :=
  let raw := pyStrip (fun c => c ∈ vlm_strip_set) (pyStrip pyIsSpace content)
  match clean_username raw with
  | none => (none, 0)
  | some username => (some username, vlm_confidence_score raw username)

/-! ### Duplicate detector (src/extract_usernames.py:524, 565) -/

/-- One step of the scan of `find_similar_existing`: skip registry members
whose length differs by more than the bound, record a new best on a strictly
smaller positive distance. -/
def fsimStep (username : List Char) (max_distance : Nat)
    (acc : Option (List Char) × Nat) (existing : List Char) : Option (List Char) × Nat :=
  if max_distance < ((existing.length : ℤ) - (username.length : ℤ)).natAbs then acc
  else
    let dist := levenshtein_distance username existing
    if 0 < dist ∧ dist < acc.2 then (some existing, dist) else acc

/-- Embedding of `find_similar_existing`: best (first minimal) positive
Levenshtein distance within the bound over length-compatible registry
members. -/
def find_similar_existing (username : List Char) (existing_usernames : List (List Char))
    (max_distance : Nat := 2) : Option (List Char × Nat) :=
  if username = [] || existing_usernames = [] then none
  else
    let r := existing_usernames.foldl (fsimStep username max_distance) (none, max_distance + 1)
    match r.1 with
    | some m => some (m, r.2)
    | none => none

/-- The duplicate flags attached to a `FinalResult`. -/
structure DupFlags where
  is_duplicate : Bool
  is_near_duplicate : Bool
  similar_to : Option (List Char)
  edit_distance : Option Nat
deriving DecidableEq, Repr

/-- Embedding of the duplicate-detection step of
`extract_username_from_image_parallel` (lines 570–583): exact membership first,
then the near-duplicate scan. -/
def duplicate_check (username : Option (List Char)) (existing_usernames : List (List Char)) :
    DupFlags :=
  match username with
  | none => ⟨false, false, none, none⟩
  | some u =>
    if u ∈ existing_usernames then ⟨true, false, none, none⟩
    else
      match find_similar_existing u existing_usernames with
      | some (m, d) => ⟨false, true, some m, some d⟩
      | none => ⟨false, false, none, none⟩

/-! ### Lemmas about the character primitives -/

/-- `Char.ofNat` round-trips through `toNat` below the surrogate range. -/
theorem char_toNat_ofNat {n : Nat} (h : n < 55296) : (Char.ofNat n).toNat = n := by
  have hv : n.isValidChar := Or.inl h
  rw [Char.ofNat, dif_pos hv]
  rfl

/-- A character of the canonical output alphabet: digit, lowercase letter,
underscore or dot. -/
def goodChar (c : Char) : Bool :=
  pyIsDigit c || pyIsLowerAlpha c || c = '_' || c = '.'

theorem pyLower_not_upper (c : Char) : pyIsUpperAlpha (pyLower c) = false := by
  unfold pyLower
  by_cases h : pyIsUpperAlpha c = true
  · rw [if_pos h]
    unfold pyIsUpperAlpha at h ⊢
    have h1 : 65 ≤ c.toNat ∧ c.toNat ≤ 90 := by
      simpa [Bool.and_eq_true, decide_eq_true_eq] using h
    have h2 : c.toNat + 32 < 55296 := by omega
    simp only [char_toNat_ofNat h2]
    simp only [Bool.and_eq_false_iff, decide_eq_false_iff_not]
    omega
  · rw [if_neg h]
    exact Bool.eq_false_iff.mpr h

theorem goodChar_ranges {c : Char} (h : goodChar c = true) :
    (48 ≤ c.toNat ∧ c.toNat ≤ 57) ∨ (97 ≤ c.toNat ∧ c.toNat ≤ 122) ∨
      c.toNat = 95 ∨ c.toNat = 46 := by
  unfold goodChar pyIsDigit pyIsLowerAlpha at h
  simp only [Bool.or_eq_true, Bool.and_eq_true, decide_eq_true_eq] at h
  rcases h with ((h | h) | h) | h
  · left; exact h
  · right; left; exact h
  · right; right; left; subst h; rfl
  · right; right; right; subst h; rfl

theorem goodChar_pyLower_fix {c : Char} (h : goodChar c = true) : pyLower c = c := by
  unfold pyLower
  rw [if_neg]
  intro hup
  unfold pyIsUpperAlpha at hup
  have h1 : 65 ≤ c.toNat ∧ c.toNat ≤ 90 := by
    simpa [Bool.and_eq_true, decide_eq_true_eq] using hup
  rcases goodChar_ranges h with h2 | h2 | h2 | h2 <;> omega

theorem goodChar_not_space {c : Char} (h : goodChar c = true) : pyIsSpace c = false := by
  unfold pyIsSpace
  simp only [Bool.or_eq_false_iff, Bool.and_eq_false_iff, decide_eq_false_iff_not]
  rcases goodChar_ranges h with h2 | h2 | h2 | h2 <;> omega

theorem goodChar_wordOrDot {c : Char} (h : goodChar c = true) : pyIsWordOrDot c = true := by
  unfold goodChar at h
  unfold pyIsWordOrDot pyIsAlnum
  simp only [Bool.or_eq_true] at h ⊢
  tauto

theorem pyIsAlnum_of_goodChar_not_special {c : Char} (hg : goodChar c = true)
    (hd : c ≠ '.') (hu : c ≠ '_') : pyIsAlnum c = true := by
  unfold goodChar at hg
  unfold pyIsAlnum
  simp only [Bool.or_eq_true, decide_eq_true_eq] at hg ⊢
  rcases hg with ((h | h) | h) | h
  · exact Or.inl (Or.inl h)
  · exact Or.inl (Or.inr h)
  · exact absurd h hu
  · exact absurd h hd

theorem pyIsAlnum_ranges {c : Char} (h : pyIsAlnum c = true) :
    (48 ≤ c.toNat ∧ c.toNat ≤ 57) ∨ (97 ≤ c.toNat ∧ c.toNat ≤ 122) ∨
      (65 ≤ c.toNat ∧ c.toNat ≤ 90) := by
  unfold pyIsAlnum pyIsDigit pyIsLowerAlpha pyIsUpperAlpha at h
  simp only [Bool.or_eq_true, Bool.and_eq_true, decide_eq_true_eq] at h
  tauto

/-! ### The canonical-output characterization of `clean_username` -/

/-- The acceptance predicate on canonical identities: nonempty, at most 30
characters, drawn from `[a-z0-9._]`, alphanumeric first character, no trailing
dot. -/
def canonicalIdentity (x : List Char) : Prop :=
  x ≠ [] ∧ x.length ≤ 30 ∧ (∀ c ∈ x, goodChar c = true) ∧
    pyIsAlnum (x.headD ' ') = true ∧ x.getLastD ' ' ≠ '.'

theorem dropWhile_eq_self_of_all {p : Char → Bool} {l : List Char}
    (h : ∀ c ∈ l, p c = false) : l.dropWhile p = l := by
  cases l with
  | nil => rfl
  | cons a l => rw [List.dropWhile_cons, if_neg (by simp [h a (List.mem_cons_self a l)])]

theorem pyStrip_eq_self_of_all {p : Char → Bool} {l : List Char}
    (h : ∀ c ∈ l, p c = false) : pyStrip p l = l := by
  unfold pyStrip
  rw [dropWhile_eq_self_of_all h,
    dropWhile_eq_self_of_all (fun c hc => h c (List.mem_reverse.mp hc)), List.reverse_reverse]

theorem mem_rstripDot {c : Char} {l : List Char} (h : c ∈ rstripDot l) : c ∈ l := by
  unfold rstripDot at h
  exact List.mem_reverse.mp ((List.dropWhile_sublist _).subset (List.mem_reverse.mp h))

theorem rstripDot_getLast {l : List Char} (h : rstripDot l ≠ []) :
    (rstripDot l).getLastD ' ' ≠ '.' := by
  unfold rstripDot at h ⊢
  rw [List.getLastD_eq_getLast?, List.getLast?_eq_head?_reverse, List.reverse_reverse]
  cases hd : List.dropWhile (fun c => c = '.') l.reverse with
  | nil => simp [hd] at h
  | cons a t =>
    have := List.head?_dropWhile_not (fun c => c = '.') l.reverse
    rw [hd] at this
    simp only [List.head?_cons, Option.getD_some]
    intro hc
    simp [hc] at this

theorem rstripDot_eq_self {l : List Char} (h : l.getLastD ' ' ≠ '.') : rstripDot l = l := by
  unfold rstripDot
  cases hr : l.reverse with
  | nil =>
    have hl : l = [] := List.reverse_eq_nil_iff.mp hr
    simp [hl]
  | cons b r =>
    rw [List.getLastD_eq_getLast?, List.getLast?_eq_head?_reverse, hr] at h
    simp only [List.head?_cons, Option.getD_some] at h
    rw [List.dropWhile_cons, if_neg (by simp [h]), ← hr, List.reverse_reverse]

theorem mem_pyStrip {p : Char → Bool} {c : Char} {l : List Char} (h : c ∈ pyStrip p l) :
    c ∈ l := by
  unfold pyStrip at h
  have h1 := (List.dropWhile_sublist p).subset (List.mem_reverse.mp h)
  exact (List.dropWhile_sublist p).subset (List.mem_reverse.mp h1)

theorem goodChar_of_wordOrDot_not_upper {c : Char} (hw : pyIsWordOrDot c = true)
    (hu : pyIsUpperAlpha c = false) : goodChar c = true := by
  unfold pyIsWordOrDot pyIsAlnum at hw
  unfold goodChar
  rw [hu] at hw
  simp only [Bool.or_false] at hw
  simp only [Bool.or_eq_true] at hw ⊢
  tauto

/-- Every successful output of `clean_username` is a canonical identity. -/
theorem clean_username_canonical {s x : List Char} (h : clean_username s = some x) :
    canonicalIdentity x := by
  simp only [clean_username] at h
  split_ifs at h with h0 h1 h2 h3 h4
  simp at h
  subst h
  set t := normalized_core s with ht
  simp only [Bool.or_eq_true, decide_eq_true_eq, not_or, not_lt] at h1
  refine ⟨?_, h1.2, ?_, ?_, h3⟩
  · intro hnil
    rw [hnil] at h1
    simp at h1
  · intro c hc
    have hc4 : c ∈ ((pyStrip pyIsSpace (s.map pyLower)).filter
        (fun c => !pyIsSpace c)).filter pyIsWordOrDot := by
      have hc5 := mem_rstripDot hc
      exact (List.dropWhile_sublist _).subset hc5
    have hword : pyIsWordOrDot c = true := (List.mem_filter.mp hc4).2
    have hc3 : c ∈ pyStrip pyIsSpace (s.map pyLower) :=
      (List.mem_filter.mp (List.mem_filter.mp hc4).1).1
    have hc1 : c ∈ s.map pyLower := mem_pyStrip hc3
    obtain ⟨c₀, _, hc₀⟩ := List.mem_map.mp hc1
    have hup : pyIsUpperAlpha c = false := hc₀ ▸ pyLower_not_upper c₀
    exact goodChar_of_wordOrDot_not_upper hword hup
  · simpa using h2

/-- `clean_username` accepts every canonical identity unchanged. -/
theorem clean_username_of_canonical {x : List Char} (h : canonicalIdentity x) :
    clean_username x = some x := by
  obtain ⟨hne, hlen, hchars, hhead, hlast⟩ := h
  obtain ⟨a, t, rfl⟩ := List.exists_cons_of_ne_nil hne
  have ha : pyIsAlnum a = true := by simpa using hhead
  have hmap : (a :: t).map pyLower = a :: t := by
    have hcg : ∀ c ∈ a :: t, pyLower c = id c := fun c hc => goodChar_pyLower_fix (hchars c hc)
    rw [List.map_congr_left hcg, List.map_id]
  have hstrip : pyStrip pyIsSpace (a :: t) = a :: t :=
    pyStrip_eq_self_of_all (fun c hc => goodChar_not_space (hchars c hc))
  have hfil1 : (a :: t).filter (fun c => !pyIsSpace c) = a :: t :=
    List.filter_eq_self.mpr (fun c hc => by simp [goodChar_not_space (hchars c hc)])
  have hfil2 : (a :: t).filter pyIsWordOrDot = a :: t :=
    List.filter_eq_self.mpr (fun c hc => goodChar_wordOrDot (hchars c hc))
  have hdrop : (a :: t).dropWhile (fun c => c = '.' || c = '_') = a :: t := by
    rw [List.dropWhile_cons, if_neg]
    simp only [Bool.or_eq_true, decide_eq_true_eq]
    rintro (rfl | rfl) <;> · exact absurd ha (by decide)
  have hrs : rstripDot (a :: t) = a :: t := rstripDot_eq_self hlast
  have hcore : normalized_core (a :: t) = a :: t := by
    unfold normalized_core
    rw [hmap, hstrip, hfil1, hfil2, hdrop, hrs]
  have hc1 : ¬((decide ((a :: t).length < 1) || decide (30 < (a :: t).length)) = true) := by
    simp only [Bool.or_eq_true, decide_eq_true_eq, not_or, not_lt]
    simp only [List.length_cons] at hlen ⊢
    omega
  have hc2 : ¬((!pyIsAlnum ((a :: t).headD ' ')) = true) := by
    simp [ha]
  have hc4 : ¬((!(a :: t).any pyIsAlnum) = true) := by
    simp [List.any_cons, ha]
  simp only [clean_username, hcore]
  rw [if_neg (show ¬(a :: t) = [] by simp), if_neg hc1, if_neg hc2, if_neg hlast, if_neg hc4]

/-! ### Claim C7: idempotence of the identity normalizer -/

/-- C7: the Identity Normalizer is idempotent: for every string `s`, if
`clean_username s` returns a canonical identity `x`, then `clean_username x`
returns `x` unchanged. -/
theorem C7_normalizer_idempotent (s x : List Char) (h : clean_username s = some x) :
    clean_username x = some x :=
  clean_username_of_canonical (clean_username_canonical h)

/-- Witness for C7 at the concrete input `" Cool.Guy42 "`. -/
theorem C7_normalizer_idempotent_witness :
    clean_username " Cool.Guy42 ".toList = some "cool.guy42".toList ∧
      clean_username "cool.guy42".toList = some "cool.guy42".toList :=
  ⟨by decide, C7_normalizer_idempotent " Cool.Guy42 ".toList "cool.guy42".toList (by decide)⟩

/-! ### Claim C3: the normalizer rejection set -/

/-- C3 counterexample: contrary to the claim, the Identity Normalizer does not
reject `".abc"`, `"_abc"` or `"abc."` — it strips the offending edge
characters and accepts the remainder `"abc"`. -/
theorem C3_rejection_set_counterexample :
    clean_username ".abc".toList = some "abc".toList ∧
      clean_username "_abc".toList = some "abc".toList ∧
      clean_username "abc.".toList = some "abc".toList := by
  decide

/-- C3 as amended: the normalizer rejects the empty string, `"..."`, and any
input whose cleaned form exceeds 30 characters; inputs with leading `.`/`_` or
a trailing `.` are not rejected but canonicalized by stripping those edge
characters (`".abc"`, `"_abc"` and `"abc."` all normalize to `"abc"`). -/
theorem C3_rejection_set_amended :
    clean_username [] = none ∧
      clean_username "...".toList = none ∧
      clean_username ".abc".toList = some "abc".toList ∧
      clean_username "_abc".toList = some "abc".toList ∧
      clean_username "abc.".toList = some "abc".toList ∧
      (∀ s : List Char, 30 < (normalized_core s).length → clean_username s = none) := by
  refine ⟨by decide, by decide, by decide, by decide, by decide, ?_⟩
  intro s hs
  simp only [clean_username]
  split_ifs with h0 h1 h2 h3 h4 <;> first
    | rfl
    | (exfalso
       simp only [Bool.or_eq_true, decide_eq_true_eq] at h1
       exact h1 (Or.inr hs))

/-- Witness for the general conjunct of the amended C3 at a 31-character
input. -/
theorem C3_rejection_set_amended_witness :
    clean_username (List.replicate 31 'a') = none :=
  C3_rejection_set_amended.2.2.2.2.2 (List.replicate 31 'a') (by decide)

/-! ### Claim C8: dotted-sibling asymmetry and the bidirectional wrapper -/

/-- C8: the bidirectional dotted-variant check accepts the pair
`("john.doe", "johnodoe")` in both argument orders, while the one-directional
`_is_dotted_sibling` check only accepts a candidate that itself carries a dot
(and differs from the winner), so it fires in exactly one direction for this
pair. -/
theorem C8_dotted_sibling_asymmetry :
    (∀ c w : List Char, is_dotted_sibling c w = true → c.contains '.' = true ∧ c ≠ w) ∧
      is_dotted_variant "john.doe".toList "johnodoe".toList = true ∧
      is_dotted_variant "johnodoe".toList "john.doe".toList = true ∧
      is_dotted_sibling "john.doe".toList "johnodoe".toList = true ∧
      is_dotted_sibling "johnodoe".toList "john.doe".toList = false := by
  refine ⟨?_, by decide, by decide, by decide, by decide⟩
  intro c w h
  unfold is_dotted_sibling at h
  split_ifs at h with h1 h2
  exact ⟨by simpa using h2, h1⟩

/-- Witness for the general conjunct of C8 at the concrete pair. -/
theorem C8_dotted_sibling_asymmetry_witness :
    ("john.doe".toList.contains '.' = true ∧ "john.doe".toList ≠ "johnodoe".toList) :=
  C8_dotted_sibling_asymmetry.1 "john.doe".toList "johnodoe".toList (by decide)

/-! ### Claim C1: exact-agreement strategy of the consensus merger -/

/-- C1: when the two engines return identical usernames the merger returns
that username with confidence `min(max(confA, confB) + 5, 95)` and strategy
tag `exact_agreement`; in particular `"cool.guy42"` at confidences 80 and 75
merges to confidence 85, which classifies as `verified`. -/
theorem C1_exact_agreement :
    (∀ (u : List Char) (a b : ℚ),
      intelligent_consensus_validator u a u b = (u, min (max a b + 5) 95, .exact_agreement)) ∧
      intelligent_consensus_validator "cool.guy42".toList 80 "cool.guy42".toList 75 =
        ("cool.guy42".toList, 85, .exact_agreement) ∧
      classify_status 85 = .verified := by
  refine ⟨?_, by decide, by decide⟩
  intro u a b
  unfold intelligent_consensus_validator
  rw [if_pos rfl]

/-! ### VLM confidence bounds (shared) -/

theorem vlm_confidence_score_bounds (raw_response username : List Char) :
    60 ≤ vlm_confidence_score raw_response username ∧
      vlm_confidence_score raw_response username ≤ 95 := by
  unfold vlm_confidence_score
  split_ifs <;> constructor <;> norm_num

/-! ### Claim C10: the holistic engine's confidence range -/

/-- C10: whenever the VLM primary engine produces a non-null username, its
reported confidence lies in `[60, 95]`: the base of 85 adjusted by −15
(hedging), +10 (valid format) and −10 (unusual pattern) stays within `[60,95]`
before the `max(60, min(·, 100))` clamp, so in particular a VLM-only result
never exceeds 95. -/
theorem C10_vlm_confidence_range (content username : List Char)
    (h : (vlm_primary_extract content).1 = some username) :
    60 ≤ (vlm_primary_extract content).2 ∧ (vlm_primary_extract content).2 ≤ 95 := by
  rcases hc : clean_username (pyStrip (fun c => decide (c ∈ vlm_strip_set)) (pyStrip pyIsSpace content))
    with _ | u
  · exfalso
    simp only [vlm_primary_extract, hc] at h
    simp at h
  · have hb := vlm_confidence_score_bounds
      (pyStrip (fun c => decide (c ∈ vlm_strip_set)) (pyStrip pyIsSpace content)) u
    simpa only [vlm_primary_extract, hc] using hb

/-- Witness for C10 at the concrete response `"cool.guy42"`. -/
theorem C10_vlm_confidence_range_witness :
    60 ≤ (vlm_primary_extract "cool.guy42".toList).2 ∧
      (vlm_primary_extract "cool.guy42".toList).2 ≤ 95 :=
  C10_vlm_confidence_range "cool.guy42".toList "cool.guy42".toList (by decide)

/-! ### Claim C5: confidence ranges of the merger strategies -/

/-- C5 counterexample: the dotted-variant strategy adds 3 without a cap, so
the merger can report a confidence above 100: with the VLM reading
`"johnodoe"` at 95 and the OCR reading `"john.doe"` at 100 the merger returns
`"john.doe"` at 103. -/
theorem C5_confidence_range_counterexample :
    (intelligent_consensus_validator "johnodoe".toList 95 "john.doe".toList 100).2.1 = 103 ∧
      ¬((intelligent_consensus_validator "johnodoe".toList 95 "john.doe".toList 100).2.1 ≤ 100) := by
  constructor <;> decide

/-- The confusion-pair merge strategy always adopts the corrected side at the
fixed confidence 88. -/
theorem find_confusion_match_conf {a b : List Char} {c : List Char × ℚ}
    (h : find_confusion_match a b = some c) : c.2 = 88 := by
  simp only [find_confusion_match] at h
  split_ifs at h
  obtain ⟨p, _, hp⟩ := List.exists_of_findSome?_eq_some h
  split_ifs at hp <;> simp only [Option.some.injEq] at hp <;> rw [← hp]

/-- C5 as amended: for engine confidences within `[0, 100]`, every merger
strategy except dotted-variant agreement produces a confidence within
`[0, 100]`; the dotted-variant strategies add an uncapped +3, so the merger
output always lies within `[0, 103]` but can exceed 100 when the preferred
side's confidence exceeds 97. -/
theorem C5_confidence_range_amended (vlmU ocrU : List Char) (vlmC ocrC : ℚ)
    (h1 : 0 ≤ vlmC) (h2 : vlmC ≤ 100) (h3 : 0 ≤ ocrC) (h4 : ocrC ≤ 100) :
    0 ≤ (intelligent_consensus_validator vlmU vlmC ocrU ocrC).2.1 ∧
      (intelligent_consensus_validator vlmU vlmC ocrU ocrC).2.1 ≤ 103 ∧
      ((intelligent_consensus_validator vlmU vlmC ocrU ocrC).2.2 ≠ .dot_reconciled_vlm →
        (intelligent_consensus_validator vlmU vlmC ocrU ocrC).2.2 ≠ .dot_reconciled_ocr →
        (intelligent_consensus_validator vlmU vlmC ocrU ocrC).2.1 ≤ 100) := by
  rcases hm : find_confusion_match vlmU ocrU with _ | c
  · simp only [intelligent_consensus_validator, hm]
    split_ifs <;> refine ⟨?_, ?_, fun hh1 hh2 => ?_⟩ <;>
      first
        | exact absurd rfl hh1
        | exact absurd rfl hh2
        | (simp only [min_def, max_def]; (try split_ifs) <;> linarith)
  · have h88 := find_confusion_match_conf hm
    simp only [intelligent_consensus_validator, hm]
    split_ifs <;> refine ⟨?_, ?_, fun hh1 hh2 => ?_⟩ <;>
      first
        | exact absurd rfl hh1
        | exact absurd rfl hh2
        | (simp only [min_def, max_def]; (try split_ifs) <;> linarith)

/-- Witness for the amended C5 at the counterexample inputs. -/
theorem C5_confidence_range_amended_witness :
    0 ≤ (intelligent_consensus_validator "johnodoe".toList 95 "john.doe".toList 100).2.1 ∧
      (intelligent_consensus_validator "johnodoe".toList 95 "john.doe".toList 100).2.1 ≤ 103 :=
  ⟨(C5_confidence_range_amended "johnodoe".toList "john.doe".toList 95 100
      (by norm_num) (by norm_num) (by norm_num) (by norm_num)).1,
    (C5_confidence_range_amended "johnodoe".toList "john.doe".toList 95 100
      (by norm_num) (by norm_num) (by norm_num) (by norm_num)).2.1⟩

/-! ### Claim C6: ambiguous major divergence is routed to review -/

/-- C6: when the merger reaches the ambiguous-major-divergence case (different
usernames, no dotted-variant or confusion-pair match, edit distance > 2, and
neither side ahead by ≥ 10) with the VLM confidence produced by the holistic
engine's scoring, it returns the VLM username at
`max(vlmConfidence − 15, 70)` with tag `ambiguous_disagreement`, and because
the VLM confidence never exceeds 95 this merged confidence is below 85, so the
result always classifies as `review`. -/
theorem C6_ambiguous_disagreement_review (raw vlmU ocrU : List Char) (ocrC : ℚ)
    (h1 : vlmU ≠ ocrU)
    (h2 : is_dotted_variant vlmU ocrU = false)
    (h3 : find_confusion_match vlmU ocrU = none)
    (h4 : 2 < levenshtein_distance vlmU ocrU)
    (h5 : vlm_confidence_score raw vlmU < ocrC + 10)
    (h6 : ocrC < vlm_confidence_score raw vlmU + 10) :
    intelligent_consensus_validator vlmU (vlm_confidence_score raw vlmU) ocrU ocrC =
      (vlmU, max (vlm_confidence_score raw vlmU - 15) 70, .ambiguous_disagreement) ∧
      classify_status
        (intelligent_consensus_validator vlmU (vlm_confidence_score raw vlmU) ocrU ocrC).2.1 =
        .review := by
  have hb := vlm_confidence_score_bounds raw vlmU
  have hicv : intelligent_consensus_validator vlmU (vlm_confidence_score raw vlmU) ocrU ocrC =
      (vlmU, max (vlm_confidence_score raw vlmU - 15) 70, .ambiguous_disagreement) := by
    simp only [intelligent_consensus_validator, h3]
    rw [if_neg h1, if_neg (by simp [h2]), if_neg (by omega), if_neg (by linarith),
      if_neg (by linarith)]
  refine ⟨hicv, ?_⟩
  rw [hicv]
  unfold classify_status
  rw [if_neg (by simp only [max_def]; split_ifs <;> linarith),
    if_neg (by simp only [max_def]; split_ifs <;> linarith)]

/-- Witness for C6: VLM reads `"abcdef"` (confidence 95), OCR reads
`"uvwxyz"` at 90. -/
theorem C6_ambiguous_disagreement_review_witness :
    intelligent_consensus_validator "abcdef".toList
        (vlm_confidence_score "abcdef".toList "abcdef".toList) "uvwxyz".toList 90 =
      ("abcdef".toList, 80, .ambiguous_disagreement) ∧
      classify_status
        (intelligent_consensus_validator "abcdef".toList
          (vlm_confidence_score "abcdef".toList "abcdef".toList) "uvwxyz".toList 90).2.1 =
        .review := by
  have h := C6_ambiguous_disagreement_review "abcdef".toList "abcdef".toList "uvwxyz".toList 90
    (by decide) (by decide) (by decide) (by decide) (by decide) (by decide)
  refine ⟨?_, h.2⟩
  rw [h.1]
  norm_num
  decide

/-! ### Claim C2: how many repairs the correction layer applies -/

/-- The variant pool on which the highest-confidence path applies both
repairs in sequence: the raw winner `"lono"` (confidence 100) is first
dot-reconciled to `"l.no"` (confidence 80), and the confusion pair
`('l', '1')` then replaces that result by `"1.no"` (confidence 60). -/
def c2pool : List VariantResult :=
  [⟨"lono".toList, 100, "v1".toList⟩,
   ⟨"l.no".toList, 80, "v2".toList⟩,
   ⟨"1.no".toList, 60, "v3".toList⟩]

/-- C2 counterexample: on `c2pool` the returned username `"1.no"` is neither
the unrepaired winner `"lono"`, nor the dot-reconciled sibling `"l.no"`, nor a
confusion correction of the original winner (there is none): two repairs were
applied in one call, refuting "at most one repair is applied". -/
theorem C2_single_repair_counterexample :
    ocr_extract_username c2pool = some ("1.no".toList, 60, .highest_confidence) ∧
      max_by_conf c2pool = some ⟨"lono".toList, 100, "v1".toList⟩ ∧
      find_dotted_sibling "lono".toList c2pool 100 = some ("l.no".toList, 80) ∧
      find_confusion_correction "lono".toList c2pool 100 = none ∧
      ("1.no".toList : List Char) ≠ "lono".toList ∧
      ("1.no".toList : List Char) ≠ "l.no".toList := by
  refine ⟨by decide, by decide, by decide, by decide, by decide, by decide⟩

/-- C2 as amended: the consensus path applies at most one repair, with dot
reconciliation taking priority over the confusion correction; the
highest-confidence path applies dot reconciliation first and may then apply a
confusion correction on top of the dot-repaired winner; in both paths, when
neither repair qualifies the winner's username and confidence are returned
unchanged. -/
theorem C2_single_repair_amended (rs : List VariantResult) :
    (∀ u d, rs ≠ [] → consensus_key rs = some u →
      find_dotted_sibling u rs (avg_conf rs u) = some d →
      ocr_extract_username rs = some (d.1, d.2, .consensus)) ∧
    (∀ u, rs ≠ [] → consensus_key rs = some u →
      find_dotted_sibling u rs (avg_conf rs u) = none →
      find_confusion_correction u rs (avg_conf rs u) = none →
      ocr_extract_username rs = some (u, avg_conf rs u, .consensus)) ∧
    (∀ b, rs ≠ [] → consensus_key rs = none → max_by_conf rs = some b →
      find_dotted_sibling b.username rs b.confidence = none →
      find_confusion_correction b.username rs b.confidence = none →
      ocr_extract_username rs = some (b.username, b.confidence, .highest_confidence)) := by
  refine ⟨?_, ?_, ?_⟩
  · intro u d hne hck hd
    simp only [ocr_extract_username, if_neg hne, hck, hd]
  · intro u hne hck hd hc
    simp only [ocr_extract_username, if_neg hne, hck, hd, hc]
  · intro b hne hck hmax hd hc
    simp only [ocr_extract_username, if_neg hne, hck, hmax, hd, hc]

/-- Witness for the three conjuncts of the amended C2: a consensus pool with a
qualifying dotted sibling, a consensus pool with no qualifying repair, and a
highest-confidence pool with no qualifying repair. -/
theorem C2_single_repair_amended_witness :
    ocr_extract_username
        [⟨"lono".toList, 50, "v1".toList⟩, ⟨"lono".toList, 50, "v2".toList⟩,
         ⟨"lono".toList, 50, "v3".toList⟩, ⟨"l.no".toList, 40, "v4".toList⟩] =
      some ("l.no".toList, 40, .consensus) ∧
    ocr_extract_username
        [⟨"aaa".toList, 50, "v1".toList⟩, ⟨"aaa".toList, 50, "v2".toList⟩,
         ⟨"aaa".toList, 50, "v3".toList⟩] =
      some ("aaa".toList, 50, .consensus) ∧
    ocr_extract_username
        [⟨"abc".toList, 100, "v1".toList⟩, ⟨"xyz".toList, 90, "v2".toList⟩] =
      some ("abc".toList, 100, .highest_confidence) := by
  refine ⟨?_, ?_, ?_⟩
  · have h := (C2_single_repair_amended
      [⟨"lono".toList, 50, "v1".toList⟩, ⟨"lono".toList, 50, "v2".toList⟩,
       ⟨"lono".toList, 50, "v3".toList⟩, ⟨"l.no".toList, 40, "v4".toList⟩]).1
      "lono".toList ("l.no".toList, 40) (by decide) (by decide) (by decide)
    exact h
  · have h := (C2_single_repair_amended
      [⟨"aaa".toList, 50, "v1".toList⟩, ⟨"aaa".toList, 50, "v2".toList⟩,
       ⟨"aaa".toList, 50, "v3".toList⟩]).2.1
      "aaa".toList (by decide) (by decide) (by decide) (by decide)
    have havg : avg_conf
        [⟨"aaa".toList, 50, "v1".toList⟩, ⟨"aaa".toList, 50, "v2".toList⟩,
         ⟨"aaa".toList, 50, "v3".toList⟩] "aaa".toList = 50 := by decide
    rwa [havg] at h
  · have h := (C2_single_repair_amended
      [⟨"abc".toList, 100, "v1".toList⟩, ⟨"xyz".toList, 90, "v2".toList⟩]).2.2
      ⟨"abc".toList, 100, "v1".toList⟩ (by decide) (by decide) (by decide) (by decide) (by decide)
    exact h

/-! ### Claim C4: the consensus-winner selection rule -/

theorem mem_sorted_keys {rs : List VariantResult} {u : List Char} :
    u ∈ sorted_keys rs ↔ u ∈ vote_keys rs := by
  unfold sorted_keys
  exact List.mem_insertionSort _

theorem sorted_keys_sorted (rs : List VariantResult) :
    List.Sorted (fun a b => vote_count rs b ≤ vote_count rs a) (sorted_keys rs) := by
  haveI hT : IsTotal (List Char) (fun a b => vote_count rs b ≤ vote_count rs a) :=
    ⟨fun a b => (Nat.le_total (vote_count rs b) (vote_count rs a)).imp id id⟩
  haveI hR : IsTrans (List Char) (fun a b => vote_count rs b ≤ vote_count rs a) :=
    ⟨fun _ _ _ hab hbc => Nat.le_trans hbc hab⟩
  unfold sorted_keys
  exact List.sorted_insertionSort _ _

theorem consensus_key_spec {rs : List VariantResult} {u : List Char}
    (h : consensus_key rs = some u) :
    3 ≤ vote_count rs u ∧ ∀ v ∈ vote_keys rs, vote_count rs v ≤ vote_count rs u := by
  unfold consensus_key at h
  have hfp := List.find?_some h
  have hp : 3 ≤ vote_count rs u := by simpa using hfp
  have hmem : u ∈ sorted_keys rs := List.mem_of_find?_eq_some h
  refine ⟨hp, ?_⟩
  cases hsk : sorted_keys rs with
  | nil => rw [hsk] at hmem; simp at hmem
  | cons hd tl =>
    rw [hsk, List.find?_cons] at h
    have hpair := List.pairwise_cons.mp (hsk ▸ sorted_keys_sorted rs)
    have hu : u = hd := by
      cases hph : decide (3 ≤ vote_count rs hd) with
      | true => rw [hph] at h; exact (Option.some.inj h).symm
      | false =>
        rw [hph] at h
        have humem : u ∈ tl := List.mem_of_find?_eq_some h
        have h1 : vote_count rs u ≤ vote_count rs hd := hpair.1 u humem
        have h2 : ¬(3 ≤ vote_count rs hd) := of_decide_eq_false hph
        omega
    subst hu
    intro v hv
    have hvs : v ∈ sorted_keys rs := mem_sorted_keys.mpr hv
    rw [hsk] at hvs
    rcases List.mem_cons.mp hvs with rfl | hvtl
    · exact Nat.le_refl _
    · exact hpair.1 v hvtl

theorem consensus_key_strict_max {rs : List VariantResult} {u : List Char}
    (hmem : u ∈ vote_keys rs) (h3 : 3 ≤ vote_count rs u)
    (hmax : ∀ v ∈ vote_keys rs, v ≠ u → vote_count rs v < vote_count rs u) :
    consensus_key rs = some u := by
  have husort : u ∈ sorted_keys rs := mem_sorted_keys.mpr hmem
  cases hsk : sorted_keys rs with
  | nil => rw [hsk] at husort; simp at husort
  | cons hd tl =>
    have hpair := List.pairwise_cons.mp (hsk ▸ sorted_keys_sorted rs)
    have hdmem : hd ∈ vote_keys rs :=
      mem_sorted_keys.mp (by rw [hsk]; exact List.mem_cons_self hd tl)
    have hu : hd = u := by
      by_contra hne
      have h1 : vote_count rs hd < vote_count rs u := hmax hd hdmem hne
      have h2 : u ∈ tl := by
        rw [hsk] at husort
        rcases List.mem_cons.mp husort with rfl | hc
        · exact absurd rfl (Ne.symm hne)
        · exact hc
      have h3' : vote_count rs u ≤ vote_count rs hd := hpair.1 u h2
      omega
    subst hu
    unfold consensus_key
    rw [hsk, List.find?_cons, decide_eq_true h3]

/-- C4: the winner-selection stage of the voting engine.  (1) A consensus
winner always has weighted count ≥ 3, is returned at its average observed
confidence, and its weighted count is maximal among all identities.  (2) An
identity with weighted count ≥ 3 strictly greater than every other identity's
weighted count is selected by consensus regardless of any raw confidence. -/
theorem C4_consensus_selection (rs : List VariantResult) :
    (∀ u c, select_winner rs = some (u, c, .consensus) →
      3 ≤ vote_count rs u ∧ c = avg_conf rs u ∧
        ∀ v ∈ vote_keys rs, vote_count rs v ≤ vote_count rs u) ∧
    (∀ u, u ∈ vote_keys rs → 3 ≤ vote_count rs u →
      (∀ v ∈ vote_keys rs, v ≠ u → vote_count rs v < vote_count rs u) →
      select_winner rs = some (u, avg_conf rs u, .consensus)) := by
  constructor
  · intro u c hsel
    by_cases hne : rs = []
    · rw [hne] at hsel
      simp [select_winner] at hsel
    cases hck : consensus_key rs with
    | none =>
      simp only [select_winner, if_neg hne, hck] at hsel
      cases hmb : max_by_conf rs with
      | none => rw [hmb] at hsel; simp at hsel
      | some b =>
        rw [hmb] at hsel
        simp at hsel
    | some u' =>
      simp only [select_winner, if_neg hne, hck, Option.some.injEq, Prod.mk.injEq] at hsel
      obtain ⟨rfl, rfl, -⟩ := hsel
      have hs := consensus_key_spec hck
      exact ⟨hs.1, rfl, hs.2⟩
  · intro u hmem h3 hmax
    have hne : rs ≠ [] := by
      intro hrs
      rw [hrs] at hmem
      simp [vote_keys] at hmem
    simp only [select_winner, if_neg hne, consensus_key_strict_max hmem h3 hmax]

/-- The pool exhibiting the C4 tie-break counterexample: `"aaa"` and `"bbb"`
both reach weighted count 3, `"bbb"` has the higher average confidence, yet
`"aaa"` wins because it was inserted into the vote dictionary first. -/
def c4pool : List VariantResult :=
  [⟨"aaa".toList, 50, "v1".toList⟩, ⟨"aaa".toList, 50, "v2".toList⟩,
   ⟨"aaa".toList, 50, "v3".toList⟩, ⟨"bbb".toList, 90, "v4".toList⟩,
   ⟨"bbb".toList, 90, "v5".toList⟩, ⟨"bbb".toList, 90, "v6".toList⟩]

/-- C4 counterexample: with equal weighted counts the selection does not fall
back to the higher average confidence — `"aaa"` (average 50) beats `"bbb"`
(average 90) because ties are broken by dictionary insertion order. -/
theorem C4_consensus_selection_counterexample :
    select_winner c4pool = some ("aaa".toList, 50, .consensus) ∧
      vote_count c4pool "aaa".toList = 3 ∧
      vote_count c4pool "bbb".toList = 3 ∧
      avg_conf c4pool "aaa".toList < avg_conf c4pool "bbb".toList := by
  refine ⟨by decide, by decide, by decide, by decide⟩

/-- Witness for C4: in a pool where `"aaa"` has weighted count 3 and `"bbb"`
count 1, `"aaa"` wins by consensus although `"bbb"` carries the highest raw
confidence. -/
theorem C4_consensus_selection_witness :
    select_winner
        [⟨"aaa".toList, 50, "v1".toList⟩, ⟨"aaa".toList, 50, "v2".toList⟩,
         ⟨"aaa".toList, 50, "v3".toList⟩, ⟨"bbb".toList, 90, "v4".toList⟩] =
      some ("aaa".toList, 50, .consensus) := by
  have h := (C4_consensus_selection
    [⟨"aaa".toList, 50, "v1".toList⟩, ⟨"aaa".toList, 50, "v2".toList⟩,
     ⟨"aaa".toList, 50, "v3".toList⟩, ⟨"bbb".toList, 90, "v4".toList⟩]).2
    "aaa".toList (by decide) (by decide) (by decide)
  have havg : avg_conf
      [⟨"aaa".toList, 50, "v1".toList⟩, ⟨"aaa".toList, 50, "v2".toList⟩,
       ⟨"aaa".toList, 50, "v3".toList⟩, ⟨"bbb".toList, 90, "v4".toList⟩] "aaa".toList = 50 := by
    decide
  rwa [havg] at h

/-! ### Claim C9: the duplicate detector -/

/-- The length pre-filter of the near-duplicate scan: the registry member's
length differs from the new identity's by at most the bound. -/
def fsimLenOk (username existing : List Char) (max_distance : Nat) : Prop :=
  ((existing.length : ℤ) - (username.length : ℤ)).natAbs ≤ max_distance

theorem fsim_foldl_spec (u : List Char) (maxd : Nat) :
    ∀ (l : List (List Char)) (bm : Option (List Char)) (bd : Nat),
      (l.foldl (fsimStep u maxd) (bm, bd)).2 ≤ bd ∧
      (∀ e ∈ l, fsimLenOk u e maxd → 0 < levenshtein_distance u e →
        (l.foldl (fsimStep u maxd) (bm, bd)).2 ≤ levenshtein_distance u e) ∧
      (l.foldl (fsimStep u maxd) (bm, bd) = (bm, bd) ∨
        ∃ m, (l.foldl (fsimStep u maxd) (bm, bd)).1 = some m ∧ m ∈ l ∧ fsimLenOk u m maxd ∧
          levenshtein_distance u m = (l.foldl (fsimStep u maxd) (bm, bd)).2 ∧
          0 < (l.foldl (fsimStep u maxd) (bm, bd)).2 ∧
          (l.foldl (fsimStep u maxd) (bm, bd)).2 < bd)
  | [] => by
    intro bm bd
    exact ⟨Nat.le_refl _, by simp, Or.inl rfl⟩
  | e :: l => by
    intro bm bd
    rw [List.foldl_cons]
    by_cases hlen : maxd < ((e.length : ℤ) - (u.length : ℤ)).natAbs
    · have hstep : fsimStep u maxd (bm, bd) e = (bm, bd) := by
        unfold fsimStep; rw [if_pos hlen]
      rw [hstep]
      have IH := fsim_foldl_spec u maxd l bm bd
      refine ⟨IH.1, ?_, ?_⟩
      · intro e' he' hlok hpos
        rcases List.mem_cons.mp he' with rfl | hm
        · exfalso; unfold fsimLenOk at hlok; omega
        · exact IH.2.1 e' hm hlok hpos
      · rcases IH.2.2 with h | ⟨m, h1, h2, h3, h4, h5, h6⟩
        · exact Or.inl h
        · exact Or.inr ⟨m, h1, List.mem_cons_of_mem _ h2, h3, h4, h5, h6⟩
    · by_cases hcond : 0 < levenshtein_distance u e ∧ levenshtein_distance u e < bd
      · have hstep : fsimStep u maxd (bm, bd) e = (some e, levenshtein_distance u e) := by
          unfold fsimStep; rw [if_neg hlen, if_pos hcond]
        rw [hstep]
        have IH := fsim_foldl_spec u maxd l (some e) (levenshtein_distance u e)
        refine ⟨Nat.le_trans IH.1 (Nat.le_of_lt hcond.2), ?_, ?_⟩
        · intro e' he' hlok hpos
          rcases List.mem_cons.mp he' with rfl | hm
          · exact IH.1
          · exact IH.2.1 e' hm hlok hpos
        · rcases IH.2.2 with h | ⟨m, h1, h2, h3, h4, h5, h6⟩
          · refine Or.inr ⟨e, ?_, List.mem_cons_self e l, ?_, ?_, ?_, ?_⟩
            · rw [h]
            · unfold fsimLenOk; omega
            · rw [h]
            · rw [h]; exact hcond.1
            · rw [h]; exact hcond.2
          · exact Or.inr ⟨m, h1, List.mem_cons_of_mem _ h2, h3, h4, h5,
              Nat.lt_trans h6 hcond.2⟩
      · have hstep : fsimStep u maxd (bm, bd) e = (bm, bd) := by
          unfold fsimStep; rw [if_neg hlen, if_neg hcond]
        rw [hstep]
        have IH := fsim_foldl_spec u maxd l bm bd
        refine ⟨IH.1, ?_, ?_⟩
        · intro e' he' hlok hpos
          rcases List.mem_cons.mp he' with rfl | hm
          · have hbd : bd ≤ levenshtein_distance u e' := by
              rcases Nat.lt_or_ge (levenshtein_distance u e') bd with hlt | hge
              · exact absurd ⟨hpos, hlt⟩ hcond
              · exact hge
            exact Nat.le_trans IH.1 hbd
          · exact IH.2.1 e' hm hlok hpos
        · rcases IH.2.2 with h | ⟨m, h1, h2, h3, h4, h5, h6⟩
          · exact Or.inl h
          · exact Or.inr ⟨m, h1, List.mem_cons_of_mem _ h2, h3, h4, h5, h6⟩

theorem find_similar_existing_spec (u : List Char) (l : List (List Char)) (hu : u ≠ []) :
    (find_similar_existing u l 2 = none ↔
      ∀ e ∈ l, fsimLenOk u e 2 →
        levenshtein_distance u e = 0 ∨ 2 < levenshtein_distance u e) ∧
    (∀ m d, find_similar_existing u l 2 = some (m, d) →
      m ∈ l ∧ fsimLenOk u m 2 ∧ levenshtein_distance u m = d ∧ 0 < d ∧ d ≤ 2 ∧
        ∀ e ∈ l, fsimLenOk u e 2 → 0 < levenshtein_distance u e →
          d ≤ levenshtein_distance u e) := by
  by_cases hl : l = []
  · subst hl
    constructor
    · constructor
      · intro _ e he
        simp at he
      · intro _
        simp only [find_similar_existing]
        rw [if_pos (by simp)]
    · intro m d h
      simp only [find_similar_existing] at h
      rw [if_pos (by simp)] at h
      exact absurd h (by simp)
  · have hguard : ¬((decide (u = []) || decide (l = [])) = true) := by
      simp [hu, hl]
    have hinv := fsim_foldl_spec u 2 l none (2 + 1)
    constructor
    · constructor
      · intro hnone e he hlok
        simp only [find_similar_existing] at hnone
        rw [if_neg hguard] at hnone
        rcases hinv.2.2 with hleft | ⟨m, h1, _, _, _, _, _⟩
        · by_cases hpos : 0 < levenshtein_distance u e
          · have h3 := hinv.2.1 e he hlok hpos
            rw [hleft] at h3
            right; omega
          · left; omega
        · rw [h1] at hnone
          exact absurd hnone (by simp)
      · intro hall
        simp only [find_similar_existing]
        rw [if_neg hguard]
        rcases hinv.2.2 with hleft | ⟨m, h1, h2, h3, h4, h5, h6⟩
        · rw [hleft]
        · exfalso
          rcases hall m h2 h3 with h0 | hgt <;> omega
    · intro m d h
      simp only [find_similar_existing] at h
      rw [if_neg hguard] at h
      rcases hinv.2.2 with hleft | ⟨m', h1, h2, h3, h4, h5, h6⟩
      · rw [hleft] at h
        exact absurd h (by simp)
      · rw [h1] at h
        simp only [Option.some.injEq, Prod.mk.injEq] at h
        obtain ⟨rfl, rfl⟩ := h
        exact ⟨h2, h3, h4, h5, by omega, fun e he hlok hpos => hinv.2.1 e he hlok hpos⟩

/-- C9: the Duplicate Detector reports an exact duplicate exactly on registry
membership; otherwise it scans only registry members whose length differs by
at most 2, and reports a near-duplicate exactly when some scanned member has a
positive Levenshtein distance of at most 2; the reported member attains the
minimum positive distance among scanned members, and a distance of 0 is never
reported. -/
theorem C9_duplicate_detector (u : List Char) (registry : List (List Char)) (hu : u ≠ []) :
    ((duplicate_check (some u) registry).is_duplicate = true ↔ u ∈ registry) ∧
    (u ∉ registry →
      (((duplicate_check (some u) registry).is_near_duplicate = true) ↔
        ∃ e ∈ registry, fsimLenOk u e 2 ∧ 0 < levenshtein_distance u e ∧
          levenshtein_distance u e ≤ 2) ∧
      (∀ m d, (duplicate_check (some u) registry).similar_to = some m →
        (duplicate_check (some u) registry).edit_distance = some d →
        m ∈ registry ∧ fsimLenOk u m 2 ∧ levenshtein_distance u m = d ∧ 0 < d ∧ d ≤ 2 ∧
          ∀ e ∈ registry, fsimLenOk u e 2 → 0 < levenshtein_distance u e →
            d ≤ levenshtein_distance u e)) := by
  have hspec := find_similar_existing_spec u registry hu
  by_cases hmem : u ∈ registry
  · constructor
    · simp [duplicate_check, if_pos hmem, hmem]
    · intro hnot
      exact absurd hmem hnot
  · have hdc : duplicate_check (some u) registry =
        (match find_similar_existing u registry 2 with
          | some (m, d) => ⟨false, true, some m, some d⟩
          | none => ⟨false, false, none, none⟩) := by
      simp [duplicate_check, if_neg hmem]
    constructor
    · rw [hdc]
      cases hfs : find_similar_existing u registry 2 with
      | none => simp [hmem]
      | some p => cases p with
        | mk m d => simp [hmem]
    · intro _
      constructor
      · rw [hdc]
        cases hfs : find_similar_existing u registry 2 with
        | none =>
          simp only []
          constructor
          · intro hfalse
            exact absurd hfalse (by simp)
          · intro ⟨e, he, hlok, hpos, hle⟩
            rcases (hspec.1.mp hfs) e he hlok with h0 | hgt <;> omega
        | some p =>
          cases p with
          | mk m d =>
            simp only []
            constructor
            · intro _
              have hm := hspec.2 m d hfs
              exact ⟨m, hm.1, hm.2.1, by omega, by omega⟩
            · intro _
              trivial
      · intro m d hsim hed
        rw [hdc] at hsim hed
        cases hfs : find_similar_existing u registry 2 with
        | none =>
          rw [hfs] at hsim
          exact absurd hsim (by simp)
        | some p =>
          cases p with
          | mk m' d' =>
            rw [hfs] at hsim hed
            simp only [Option.some.injEq] at hsim hed
            obtain rfl := hsim
            obtain rfl := hed
            exact hspec.2 m' d' hfs

/-- Witness for C9: scenario D of the spec — `"jane.smith"` is an exact
duplicate against `{"jane.smith"}` and a near-duplicate (distance 1) against
`{"jane.smyth"}`. -/
theorem C9_duplicate_detector_witness :
    duplicate_check (some "jane.smith".toList) ["jane.smith".toList] =
      ⟨true, false, none, none⟩ ∧
    duplicate_check (some "jane.smith".toList) ["jane.smyth".toList] =
      ⟨false, true, some "jane.smyth".toList, some 1⟩ ∧
    ((duplicate_check (some "jane.smith".toList) ["jane.smith".toList]).is_duplicate = true ↔
      "jane.smith".toList ∈ ["jane.smith".toList]) :=
  ⟨by decide, by decide,
    (C9_duplicate_detector "jane.smith".toList ["jane.smith".toList] (by decide)).1⟩

end ExtractUsernames
